import Mathlib

/-!
Verification of the retrieval pipeline of `ResumeATS/backend/rag_engine.py`
(class `RAGEngine`): section detection, chunking, cosine-similarity
retrieval, FAISS-backed retrieval, and index persistence.

Texts are modelled as `List Char` (Python strings are sequences of code
points); the Python string operations used by the engine (`split`, `strip`,
`lower`, `join`, containment, whitespace splitting) are embedded below as
executable functions on character lists.  Embedding vectors are modelled as
`List ℝ`; the external OpenAI embedding call (`get_embedding`) is modelled
as an oracle parameter `embed : List Char → List ℝ`.  Disk I/O is modelled
by an explicit `Disk` state keyed by file path.
-/

namespace RagEngine

/-- Python `str.strip()` whitespace (the characters relevant here). -/
def isWs (c : Char) : Bool :=
  c == ' ' || c == '\t' || c == '\n' || c == '\r' || c == '\x0b' || c == '\x0c'

/-- Shorthand: the character list of a string literal. -/
def str (s : String) : List Char := s.data

/-- Python `text.split('\n\n')` from `chunk_text` (line 114 of
`rag_engine.py`): split on each non-overlapping occurrence of the
two-character separator, scanning left to right; `''.split('\n\n') = ['']`. -/
def splitPara : List Char → List (List Char)
  | [] => [[]]
  | '\n' :: '\n' :: rest => [] :: splitPara rest
  | c :: rest =>
    match splitPara rest with
    | [] => [[c]]
    | p :: ps => (c :: p) :: ps

/-- Python `text.split(sep)` for a single-character separator (used with
`'\n'` by `_detect_sections`, line 211). -/
def splitOnChar (sep : Char) : List Char → List (List Char)
  | [] => [[]]
  | c :: rest =>
    if c = sep then [] :: splitOnChar sep rest
    else
      match splitOnChar sep rest with
      | [] => [[c]]
      | p :: ps => (c :: p) :: ps

/-- Python `str.strip()`: drop leading and trailing whitespace. -/
def strip (s : List Char) : List Char :=
  ((s.dropWhile isWs).reverse.dropWhile isWs).reverse

/-- Helper for `splitWords` (accumulates the current word reversed). -/
def splitWordsAux : List Char → List Char → List (List Char)
  | [], acc => if acc.isEmpty then [] else [acc.reverse]
  | c :: rest, acc =>
    if isWs c then
      if acc.isEmpty then splitWordsAux rest []
      else acc.reverse :: splitWordsAux rest []
    else splitWordsAux rest (c :: acc)

/-- Python `line.split()` (no argument): split on whitespace runs,
discarding empty pieces (used by `_detect_sections`, line 228). -/
def splitWords (s : List Char) : List (List Char) := splitWordsAux s []

/-- `needle` occurs at the head of `hay`. -/
def listStarts : List Char → List Char → Bool
  | [], _ => true
  | _ :: _, [] => false
  | a :: as, b :: bs => a == b && listStarts as bs

/-- Python `needle in hay` substring containment (used for the keyword
check in `_detect_sections`, line 228). -/
def occursIn (needle : List Char) : List Char → Bool
  | [] => listStarts needle []
  | c :: rest => listStarts needle (c :: rest) || occursIn needle rest

/-- Characters that are not whitespace, in order.  Used to state the
"reproduces the non-whitespace content" property of the chunker. -/
def removeWs (s : List Char) : List Char := s.filter (fun c => !isWs c)

/-- Chunk provenance tag (`Chunk.source` in `rag_engine.py`, line 21:
one of `'resume'`, `'job_description'`, `'ats_rules'`). -/
inductive Source where
  | resume
  | job_description
  | ats_rules
deriving DecidableEq, Repr

/-- The `Chunk` dataclass (lines 17-23).  The Python field `section` is a
Lean keyword and is named `sect` here.  `embedding` defaults to `None`. -/
structure Chunk where
  text : List Char
  source : Source
  sect : List Char
  embedding : Option (List ℝ) := none

/-- Python truthiness of `chunk.embedding` (line 173): `None` and the
empty list are falsy. -/
def Chunk.hasEmbedding (c : Chunk) : Bool :=
  match c.embedding with
  | none => false
  | some e => !e.isEmpty

/-- `RAGEngine.chunk_text` (lines 107-137): split the text on blank-line
paragraph boundaries, greedily accumulate paragraphs into a buffer
(appending `"\n\n"` after each), close the buffer as a stripped chunk
whenever the next paragraph no longer fits under `chunk_size`, skipping
buffers that strip to empty, and flush the final buffer.
`chunkStep` is the loop body (lines 117-127): `acc` carries the finished
chunks and the running buffer `current_chunk`. -/
def chunkStep (source : Source) (sect : List Char) (chunk_size : Int)
    (acc : List Chunk × List Char) (para : List Char) : List Chunk × List Char :=
  if ((acc.2.length : Int) + (para.length : Int)) < chunk_size then
    (acc.1, acc.2 ++ para ++ ['\n', '\n'])
  else if (strip acc.2).isEmpty then
    (acc.1, para ++ ['\n', '\n'])
  else
    (acc.1 ++ [{ text := strip acc.2, source := source, sect := sect }],
     para ++ ['\n', '\n'])

def chunk_text (text : List Char) (source : Source) (sect : List Char)
    (chunk_size : Int := 500) : List Chunk :=
  let paragraphs := splitPara text
  let out := paragraphs.foldl (chunkStep source sect chunk_size) ([], [])
  if (strip out.2).isEmpty then out.1
  else out.1 ++ [{ text := strip out.2, source := source, sect := sect }]

/-- Insertion-ordered dictionary update, as for a Python `dict`:
assigning to an existing key replaces its value in place, a new key is
appended at the end. -/
def dictInsert {α β : Type} [DecidableEq α] (m : List (α × β)) (k : α) (v : β) :
    List (α × β) :=
  if m.any (fun e => e.1 = k) then
    m.map (fun e => if e.1 = k then (k, v) else e)
  else m ++ [(k, v)]

/-- The fixed `section_keywords` table of `_detect_sections`
(lines 213-220), in Python dict insertion order. -/
def section_keywords : List (List Char × List (List Char)) :=
  [ (str "summary", [str "summary", str "objective", str "profile", str "about"]),
    (str "experience", [str "experience", str "work history", str "employment",
      str "professional experience"]),
    (str "education", [str "education", str "academic", str "degree"]),
    (str "skills", [str "skills", str "technical skills", str "competencies",
      str "expertise"]),
    (str "projects", [str "projects", str "portfolio"]),
    (str "certifications", [str "certifications", str "certificates", str "licenses"]) ]

/-- Header test of `_detect_sections` (line 228): the first table entry
whose keyword list has a member contained in `line.lower().strip()`,
provided `len(line.split()) < 5`. -/
def findHeader (line : List Char) : Option (List Char) :=
  let line_lower := strip (line.map Char.toLower)
  (section_keywords.find? (fun e =>
    e.2.any (fun kw => occursIn kw line_lower) && decide ((splitWords line).length < 5))).map
    (fun e => e.1)

/-- `RAGEngine._detect_sections` (lines 205-246): scan lines, starting in
section `summary`; on a header line flush the accumulated lines (if any)
under the previous section label and switch to the new label; other
non-blank lines accumulate; flush the final accumulation.  The returned
Python dict is modelled as an insertion-ordered association list. -/
def _detect_sections (text : List Char) : List (List Char × List Char) :=
  let lines := splitOnChar '\n' text
  let stepLine :
      List (List Char × List Char) × List Char × List (List Char) → List Char →
      List (List Char × List Char) × List Char × List (List Char) :=
    fun (sections, current_section, current_text) line =>
      match findHeader line with
      | some name =>
        let sections' :=
          if current_text.isEmpty then sections
          else dictInsert sections current_section (List.intercalate ['\n'] current_text)
        (sections', name, [])
      | none =>
        if (strip line).isEmpty then (sections, current_section, current_text)
        else (sections, current_section, current_text ++ [line])
  let out := lines.foldl stepLine ([], str "summary", [])
  if out.2.2.isEmpty then out.1
  else dictInsert out.1 out.2.1 (List.intercalate ['\n'] out.2.2)

/-- `np.dot` of two equal-length vectors. -/
def dotL (v w : List ℝ) : ℝ := (List.zipWith (fun a b => a * b) v w).sum

/-- `np.linalg.norm`: Euclidean norm, the square root of the sum of
squares. -/
noncomputable def normL (v : List ℝ) : ℝ := Real.sqrt ((v.map (fun x => x ^ 2)).sum)

/-- `RAGEngine.cosine_similarity` (lines 153-157): the dot product divided
by the product of the Euclidean norms, with no guard on the denominator. -/
noncomputable def cosine_similarity (vec1 vec2 : List ℝ) : ℝ :=
  dotL vec1 vec2 / (normL vec1 * normL vec2)

/-- Ranking relation used by `similarities.sort(key=lambda x: x[1],
reverse=True)` (line 178): descending similarity. -/
def simRel (a b : Chunk × ℝ) : Prop := b.2 ≤ a.2

noncomputable instance : DecidableRel simRel := fun a b => Real.decidableLE b.2 a.2

instance : IsTotal (Chunk × ℝ) simRel := ⟨fun a b => le_total b.2 a.2⟩

instance : IsTrans (Chunk × ℝ) simRel := ⟨fun _ _ _ h1 h2 => le_trans h2 h1⟩

/-- Python `list.sort(key=..., reverse=True)` is a stable sort; on the
similarity pairs it is insertion sort with the descending-key relation
(equal keys keep their original relative order). -/
noncomputable def sortBySimDesc (ps : List (Chunk × ℝ)) : List (Chunk × ℝ) :=
  List.insertionSort simRel ps

/-- The source filter of `retrieve_relevant_chunks` (lines 166-168):
with a filter, keep only chunks whose `source` equals it. -/
def sourceFiltered (chunks : List Chunk) (source_filter : Option Source) : List Chunk :=
  match source_filter with
  | none => chunks
  | some s => chunks.filter (fun c => c.source = s)

/-- `RAGEngine.retrieve_relevant_chunks` (lines 159-179): embed the query,
filter by source, score every chunk that carries a (truthy) embedding by
cosine similarity to the query embedding, sort the `(chunk, similarity)`
pairs by descending similarity (stable), and return the first `top_k`
chunks. -/
noncomputable def retrieve_relevant_chunks (embed : List Char → List ℝ)
    (chunks : List Chunk) (query : List Char) (top_k : ℕ)
    (source_filter : Option Source) : List Chunk :=
  let query_embedding := embed query
  let filtered_chunks := sourceFiltered chunks source_filter
  let similarities := (filtered_chunks.filter Chunk.hasEmbedding).map
    (fun c => (c, cosine_similarity query_embedding (c.embedding.getD [])))
  ((sortBySimDesc similarities).take top_k).map Prod.fst

/-- The cosine similarity of a chunk's stored embedding to a query
embedding, as computed inside `retrieve_relevant_chunks`. -/
noncomputable def simTo (query_embedding : List ℝ) (c : Chunk) : ℝ :=
  cosine_similarity query_embedding (c.embedding.getD [])

/-- The chunks of `l` whose similarity to the query embedding is exactly
`r`; used to state that ties are broken by insertion order. -/
noncomputable def simFilter (query_embedding : List ℝ) (r : ℝ) (l : List Chunk) :
    List Chunk :=
  l.filter (fun c => @decide (simTo query_embedding c = r)
    (Real.decidableEq (simTo query_embedding c) r))

/-- Similarity-key test on a `(chunk, similarity)` pair, used to state
sort stability. -/
noncomputable def keyP (r : ℝ) (x : Chunk × ℝ) : Bool :=
  @decide (x.2 = r) (Real.decidableEq x.2 r)

/-- `self.embedding_dim = 1536` (line 35). -/
def embedding_dim : ℕ := 1536

/-- A FAISS `IndexFlatL2` (line 469): a flat store of vectors of a fixed
dimensionality, searched by squared Euclidean distance. -/
structure FaissIndex where
  dim : ℕ
  vectors : List (List ℝ)

/-- `faiss_index.ntotal`: the number of stored vectors. -/
def FaissIndex.ntotal (fi : FaissIndex) : ℕ := fi.vectors.length

/-- The pickled metadata record written by `_save_index` (lines 450-455). -/
structure Metadata where
  chunks : List Chunk
  index_to_chunk_map : List (ℕ × ℕ)
  created_at : List Char
  num_chunks : ℕ

/-- A file on disk either deserializes cleanly or raises on read. -/
inductive FileContent (α : Type) where
  | good (a : α)
  | corrupt

/-- The on-disk state seen by persistence: the two artifact families keyed
by path, plus, for `delete_index`, whether `os.remove` would succeed on a
path. -/
structure Disk where
  faissFile : String → Option (FileContent FaissIndex)
  metaFile : String → Option (FileContent Metadata)
  removeOk : String → Bool

/-- The mutable engine state: `self.chunks`, `self.faiss_index` and
`self.index_to_chunk_map` (lines 33-42).  The identifier-to-chunk dict is
an insertion-ordered association list from FAISS row to chunk position. -/
structure EngineState where
  chunks : List Chunk
  faiss_index : Option FaissIndex
  index_to_chunk_map : List (ℕ × ℕ)

/-- Python `dict.get` on the identifier map (line 507). -/
def lookupD (m : List (ℕ × ℕ)) (k : ℕ) : Option ℕ :=
  (m.find? (fun e => e.1 = k)).map (fun e => e.2)

/-- `RAGEngine._get_index_path` (lines 409-413) with the default
`index_dir` of `"faiss_indexes"`. -/
def _get_index_path (index_name : String) : String × String :=
  ("faiss_indexes/" ++ index_name ++ ".faiss",
   "faiss_indexes/" ++ index_name ++ "_metadata.pkl")

/-- `RAGEngine._load_index` (lines 415-435): if both artifact files exist,
try to read the FAISS index (assigning `self.faiss_index`), then the
metadata (assigning `self.chunks` and `self.index_to_chunk_map`), and
return `True`; any read error is caught and `False` is returned — but an
assignment already executed before the error stands.  If either file is
missing, return `False` without touching the state. -/
def _load_index (st : EngineState) (d : Disk) (index_name : String := "default") :
    EngineState × Bool :=
  let faiss_path := (_get_index_path index_name).1
  let metadata_path := (_get_index_path index_name).2
  match d.faissFile faiss_path, d.metaFile metadata_path with
  | some fc, some mc =>
    match fc with
    | .corrupt => (st, false)
    | .good fi =>
      match mc with
      | .corrupt => ({ st with faiss_index := some fi }, false)
      | .good m =>
        ({ st with faiss_index := some fi, chunks := m.chunks,
                   index_to_chunk_map := m.index_to_chunk_map }, true)
  | _, _ => (st, false)

/-- `RAGEngine._save_index` (lines 437-464): a no-op when there is no
FAISS index or no chunks; otherwise write the FAISS index and the metadata
record (chunks, identifier map, creation timestamp `now`, chunk count) to
the two paths for `index_name`. -/
def _save_index (st : EngineState) (d : Disk) (now : List Char)
    (index_name : String := "default") : Disk :=
  match st.faiss_index with
  | none => d
  | some fi =>
    if st.chunks.length = 0 then d
    else
      { d with
        faissFile := Function.update d.faissFile (_get_index_path index_name).1
          (some (.good fi)),
        metaFile := Function.update d.metaFile (_get_index_path index_name).2
          (some (.good { chunks := st.chunks,
                         index_to_chunk_map := st.index_to_chunk_map,
                         created_at := now,
                         num_chunks := st.chunks.length })) }

/-- `RAGEngine.clear_index` (lines 403-407). -/
def clear_index (st : EngineState) : EngineState :=
  { st with chunks := [], faiss_index := none, index_to_chunk_map := [] }

/-- `RAGEngine._add_to_faiss_index` (lines 472-483): initialize an empty
`IndexFlatL2` if absent, append the embeddings, and map each new FAISS row
`start_idx + i` to its chunk position `chunk_indices[i]`. -/
def _add_to_faiss_index (st : EngineState) (embeddings : List (List ℝ))
    (chunk_indices : List ℕ) : EngineState :=
  let fi : FaissIndex := match st.faiss_index with
    | none => { dim := embedding_dim, vectors := [] }
    | some f => f
  let start_idx := fi.ntotal
  let fi' := { fi with vectors := fi.vectors ++ embeddings }
  let m := (chunk_indices.enum).foldl
    (fun m e => dictInsert m (start_idx + e.1) e.2) st.index_to_chunk_map
  { st with faiss_index := some fi', index_to_chunk_map := m }

/-- Squared Euclidean distance, the metric of `IndexFlatL2`. -/
def sqL2 (v w : List ℝ) : ℝ := (List.zipWith (fun a b => (a - b) ^ 2) v w).sum

/-- Ascending-distance ranking for the FAISS search. -/
def distRel (a b : ℕ × ℝ) : Prop := a.2 ≤ b.2

noncomputable instance : DecidableRel distRel := fun a b => Real.decidableLE a.2 b.2

instance : IsTotal (ℕ × ℝ) distRel := ⟨fun a b => le_total a.2 b.2⟩

instance : IsTrans (ℕ × ℝ) distRel := ⟨fun _ _ _ h1 h2 => le_trans h1 h2⟩

/-- `faiss_index.search(query_vector, k)` on a flat L2 index: the row
numbers of the `k` stored vectors closest to the query in squared
Euclidean distance, in ascending distance order (ties by row number). -/
noncomputable def FaissIndex.search (fi : FaissIndex) (qv : List ℝ) (k : ℕ) :
    List ℕ :=
  let scored := fi.vectors.enum.map (fun e => (e.1, sqL2 qv e.2))
  ((List.insertionSort distRel scored).take k).map Prod.fst

/-- Python truthiness of the source filter applied to one chunk
(line 512): no filter, or a matching `source`. -/
def matchesFilter (source_filter : Option Source) (c : Chunk) : Bool :=
  match source_filter with
  | none => true
  | some s => c.source = s

/-- The candidate loop of `retrieve_relevant_chunks_faiss` (lines 502-516):
resolve each returned row through the identifier map, skip unknown or
out-of-bounds positions, keep chunks passing the source filter, and stop
as soon as `top_k` chunks are collected. -/
def faissCollect (chunks : List Chunk) (m : List (ℕ × ℕ))
    (source_filter : Option Source) (top_k : ℕ) :
    List ℕ → List Chunk → List Chunk
  | [], acc => acc
  | idx :: rest, acc =>
    match lookupD m idx with
    | none => faissCollect chunks m source_filter top_k rest acc
    | some chunk_idx =>
      match chunks.get? chunk_idx with
      | none => faissCollect chunks m source_filter top_k rest acc
      | some chunk =>
        let acc' := if matchesFilter source_filter chunk then acc ++ [chunk] else acc
        if top_k ≤ acc'.length then acc'
        else faissCollect chunks m source_filter top_k rest acc'

/-- `RAGEngine.retrieve_relevant_chunks_faiss` (lines 485-518): when the
FAISS index is `None` or holds no vectors, fall back to the brute-force
`retrieve_relevant_chunks`; otherwise search FAISS for
`min(top_k * 2, ntotal)` candidates and collect up to `top_k` filtered
chunks. -/
noncomputable def retrieve_relevant_chunks_faiss (embed : List Char → List ℝ)
    (st : EngineState) (query : List Char) (top_k : ℕ)
    (source_filter : Option Source) : List Chunk :=
  match st.faiss_index with
  | none => retrieve_relevant_chunks embed st.chunks query top_k source_filter
  | some fi =>
    if fi.ntotal = 0 then
      retrieve_relevant_chunks embed st.chunks query top_k source_filter
    else
      let query_embedding := embed query
      let indices := fi.search query_embedding (min (top_k * 2) fi.ntotal)
      faissCollect st.chunks st.index_to_chunk_map source_filter top_k indices []

/-- `RAGEngine.delete_index` (lines 646-659): remove whichever of the two
artifact files exist; the first failing `os.remove` raises into the
`except` branch, which returns `False` with no further removal; otherwise
return `True` (in particular when there was nothing to delete). -/
def delete_index (d : Disk) (index_name : String) : Bool × Disk :=
  let faiss_path := (_get_index_path index_name).1
  let metadata_path := (_get_index_path index_name).2
  if (d.faissFile faiss_path).isSome then
    if d.removeOk faiss_path then
      let d1 := { d with faissFile := Function.update d.faissFile faiss_path none }
      if (d1.metaFile metadata_path).isSome then
        if d1.removeOk metadata_path then
          (true, { d1 with metaFile := Function.update d1.metaFile metadata_path none })
        else (false, d1)
      else (true, d1)
    else (false, d)
  else
    if (d.metaFile metadata_path).isSome then
      if d.removeOk metadata_path then
        (true, { d with metaFile := Function.update d.metaFile metadata_path none })
      else (false, d)
    else (true, d)

/-- One entry of the static ATS rule corpus. -/
structure AtsRule where
  category : List Char
  rules : List (List Char)
  weight : ℕ

/-- `RAGEngine._load_ats_rules` (lines 50-105): the fixed in-code rule
corpus. -/
def ats_rules : List AtsRule :=
  [ { category := str "Keyword Optimization",
      rules := [str "Resume should contain 70%+ of job description keywords",
        str "Keywords should appear in context, not just listed",
        str "Use exact keyword matches from job description",
        str "Include industry-specific terminology"],
      weight := 30 },
    { category := str "Formatting",
      rules := [str "Use standard section headers (Experience, Education, Skills)",
        str "Avoid tables, text boxes, headers/footers",
        str "Use simple bullet points",
        str "Consistent date formatting",
        str "No images or graphics"],
      weight := 20 },
    { category := str "Content Quality",
      rules := [str "Quantify achievements with metrics",
        str "Use action verbs to start bullet points",
        str "Show impact and results",
        str "Relevant experience highlighted",
        str "No spelling or grammar errors"],
      weight := 25 },
    { category := str "Experience Relevance",
      rules := [str "Recent experience matches job requirements",
        str "Progressive career growth shown",
        str "Relevant projects and achievements",
        str "Industry experience alignment"],
      weight := 15 },
    { category := str "Skills Match",
      rules := [str "Technical skills match job requirements",
        str "Certifications relevant to role",
        str "Tools and technologies listed",
        str "Soft skills demonstrated through achievements"],
      weight := 10 } ]

/-- `RAGEngine.index_ats_rules` (lines 197-203): for each rule category,
build `"{category}: " ++ rules joined by spaces`, chunk it with the
category as section label, embed each chunk, and extend `self.chunks`.
The FAISS index and the identifier map are not touched. -/
def index_ats_rules (embed : List Char → List ℝ) (st : EngineState) : EngineState :=
  ats_rules.foldl
    (fun st rc =>
      let rule_text := rc.category ++ str ": " ++ List.intercalate (str " ") rc.rules
      let chunks := (chunk_text rule_text .ats_rules rc.category).map
        (fun ch => { ch with embedding := some (embed ch.text) })
      { st with chunks := st.chunks ++ chunks })
    st

/-- The per-chunk body of the indexing loops of `index_resume_with_faiss`
(lines 534-541) and `index_job_description_with_faiss` (lines 561-566):
embed the chunk, append it to `self.chunks`, and record its embedding and
its position (`len(self.chunks) - 1`) for the batch FAISS insertion. -/
def indexChunkStep (embed : List Char → List ℝ)
    (acc : EngineState × List (List ℝ) × List ℕ) (ch : Chunk) :
    EngineState × List (List ℝ) × List ℕ :=
  let e := embed ch.text
  let ch' := { ch with embedding := some e }
  ({ acc.1 with chunks := acc.1.chunks ++ [ch'] },
   acc.2.1 ++ [e],
   acc.2.2 ++ [acc.1.chunks.length])

/-- `RAGEngine.index_resume_with_faiss` (lines 520-552): clear the index,
detect sections, chunk and embed each section with source `resume`, batch
the vectors into FAISS, and (when `save`) persist under `index_name`. -/
def index_resume_with_faiss (embed : List Char → List ℝ) (st : EngineState)
    (d : Disk) (resume_text : List Char) (save : Bool) (index_name : String)
    (now : List Char) : EngineState × Disk :=
  let st0 := clear_index st
  let sections := _detect_sections resume_text
  let acc := sections.foldl
    (fun acc sec =>
      (chunk_text sec.2 .resume sec.1).foldl (indexChunkStep embed) acc)
    (st0, [], [])
  let st1 := if acc.2.1.isEmpty then acc.1 else _add_to_faiss_index acc.1 acc.2.1 acc.2.2
  let d1 := if save then _save_index st1 d now index_name else d
  (st1, d1)

/-- `RAGEngine.index_job_description_with_faiss` (lines 554-577): chunk and
embed the job description with source `job_description` and section
`requirements`, batch the vectors into FAISS, and (when `save`) persist. -/
def index_job_description_with_faiss (embed : List Char → List ℝ)
    (st : EngineState) (d : Disk) (jd_text : List Char) (save : Bool)
    (index_name : String) (now : List Char) : EngineState × Disk :=
  let acc := (chunk_text jd_text .job_description (str "requirements")).foldl
    (indexChunkStep embed) (st, [], [])
  let st1 := if acc.2.1.isEmpty then acc.1 else _add_to_faiss_index acc.1 acc.2.1 acc.2.2
  let d1 := if save then _save_index st1 d now index_name else d
  (st1, d1)

/-- The state transformation of `RAGEngine.analyze_with_rag_faiss`
(lines 579-620): clear, index the resume (saving), index the job
description when given (saving), then index the ATS rules.  The remaining
steps of the method — the three `retrieve_relevant_chunks_faiss` calls,
`_build_context` and `_generate_analysis` — read but never write the
engine state, so the state after the method is the state after indexing.
The session-timestamp index name of line 585 is the `index_name`
parameter here, and `now` stands for `datetime.now().isoformat()`. -/
def analyze_with_rag_faiss_state (embed : List Char → List ℝ)
    (st : EngineState) (d : Disk) (resume_text : List Char)
    (job_description : Option (List Char)) (index_name : String)
    (now : List Char) : EngineState × Disk :=
  let st0 := clear_index st
  let rd := index_resume_with_faiss embed st0 d resume_text true index_name now
  let jd := match job_description with
    | some t => index_job_description_with_faiss embed rd.1 rd.2 t true index_name now
    | none => rd
  (index_ats_rules embed jd.1, jd.2)

/-- The invariant claimed for the identifier-to-chunk mapping: every
entry resolves to an in-bounds chunk whose source is `resume` or
`job_description`. -/
def MapOk (st : EngineState) : Prop :=
  ∀ p ∈ st.index_to_chunk_map, ∃ c, st.chunks.get? p.2 = some c
    ∧ (c.source = .resume ∨ c.source = .job_description)

/-! Concrete fixtures used to instantiate the theorems below. -/

/-- A concrete embedding oracle. -/
noncomputable def wEmbed : List Char → List ℝ := fun _ => [1]

/-- A concrete chunk with an embedding. -/
noncomputable def wChunk : Chunk :=
  { text := str "hi", source := .resume, sect := str "general", embedding := some [1] }

/-- An engine state with no indexed data. -/
def emptyState : EngineState :=
  { chunks := [], faiss_index := none, index_to_chunk_map := [] }

/-- A concrete indexed engine state. -/
noncomputable def wState : EngineState :=
  { chunks := [wChunk], faiss_index := some { dim := embedding_dim, vectors := [[1]] },
    index_to_chunk_map := [(0, 0)] }

/-- A disk with no files. -/
def emptyDisk : Disk :=
  { faissFile := fun _ => none, metaFile := fun _ => none, removeOk := fun _ => true }

/-- A concrete FAISS artifact. -/
noncomputable def wFaiss : FaissIndex := { dim := embedding_dim, vectors := [[1]] }

/-- A disk holding, for the name `default`, a readable FAISS file and a
corrupt metadata file. -/
noncomputable def corruptDisk : Disk :=
  { faissFile := fun p => if p = (_get_index_path "default").1 then some (.good wFaiss) else none,
    metaFile := fun p => if p = (_get_index_path "default").2 then some .corrupt else none,
    removeOk := fun _ => true }

end RagEngine

namespace RagEngine

/-- Claim C3 fails on the code: `chunk_text` with bound 20 on
`"AAAAAAAAAA\n\nBBBBBBBBBB\n\nCCCCCCCCCC"` does not produce the two
chunks `"AAAAAAAAAA\n\nBBBBBBBBBB"` and `"CCCCCCCCCC"`.  The buffer
tested against the bound already carries a trailing `"\n\n"`, so after the
first paragraph the buffer has length 12 and `12 + 10 < 20` fails,
closing the first chunk at `"AAAAAAAAAA"`. -/
theorem chunk_text_scenario_counterexample :
    ¬ ((chunk_text (str "AAAAAAAAAA\n\nBBBBBBBBBB\n\nCCCCCCCCCC") .resume
        (str "general") 20).map Chunk.text
      = [str "AAAAAAAAAA\n\nBBBBBBBBBB", str "CCCCCCCCCC"]) := by
  decide

/-- Claim C3, amended: `chunk_text` with bound 20 on
`"AAAAAAAAAA\n\nBBBBBBBBBB\n\nCCCCCCCCCC"` (here with source `resume` and
section `general`) produces exactly three chunks, with texts
`"AAAAAAAAAA"`, `"BBBBBBBBBB"` and `"CCCCCCCCCC"`. -/
theorem chunk_text_scenario_amended :
    (chunk_text (str "AAAAAAAAAA\n\nBBBBBBBBBB\n\nCCCCCCCCCC") .resume
      (str "general") 20).map Chunk.text
      = [str "AAAAAAAAAA", str "BBBBBBBBBB", str "CCCCCCCCCC"] := by
  decide

/-- Claim C7: `_detect_sections` on
`"Skills\nPython, Go\n\nExperience\nBuilt a cache."` returns exactly the
mapping `{skills: "Python, Go", experience: "Built a cache."}`.  The
header test embedded in `_detect_sections` (via `findHeader`) is exactly:
fewer than 5 whitespace-delimited tokens and a keyword of the fixed
`section_keywords` table contained in the lowercased line. -/
theorem detect_sections_scenario :
    _detect_sections (str "Skills\nPython, Go\n\nExperience\nBuilt a cache.")
      = [(str "skills", str "Python, Go"), (str "experience", str "Built a cache.")] := by
  decide

/-- Claim C2: for every state holding a FAISS index and a non-empty chunk
list, `_save_index` followed by `_load_index` under the same name (from
any in-memory state) reports success and restores the chunk list — every
chunk with all its fields — and the identifier-to-chunk mapping exactly. -/
theorem save_load_roundtrip (st st2 : EngineState) (d : Disk) (now : List Char)
    (name : String) (fi : FaissIndex)
    (hfi : st.faiss_index = some fi) (hne : st.chunks ≠ []) :
    (_load_index st2 (_save_index st d now name) name).2 = true
    ∧ (_load_index st2 (_save_index st d now name) name).1.chunks = st.chunks
    ∧ (_load_index st2 (_save_index st d now name) name).1.index_to_chunk_map
        = st.index_to_chunk_map := by
  have hlen : ¬ st.chunks.length = 0 := by
    simpa [List.length_eq_zero] using hne
  simp [_save_index, _load_index, hfi, hlen, Function.update_same]

/-- Witness for C2 at a concrete state, disk and name. -/
theorem save_load_roundtrip_witness :
    (_load_index emptyState (_save_index wState emptyDisk (str "t") "default")
        "default").2 = true
    ∧ (_load_index emptyState (_save_index wState emptyDisk (str "t") "default")
        "default").1.chunks = wState.chunks
    ∧ (_load_index emptyState (_save_index wState emptyDisk (str "t") "default")
        "default").1.index_to_chunk_map = wState.index_to_chunk_map :=
  save_load_roundtrip wState emptyState emptyDisk (str "t") "default"
    { dim := embedding_dim, vectors := [[1]] } rfl (by simp [wState])

/-- Claim C6: whenever the FAISS store is absent or holds zero vectors,
`retrieve_relevant_chunks_faiss` returns exactly the brute-force
`retrieve_relevant_chunks` result over the chunks currently in memory. -/
theorem faiss_fallback (embed : List Char → List ℝ) (st : EngineState)
    (query : List Char) (top_k : ℕ) (source_filter : Option Source)
    (h : st.faiss_index = none
      ∨ ∃ fi, st.faiss_index = some fi ∧ fi.ntotal = 0) :
    retrieve_relevant_chunks_faiss embed st query top_k source_filter
      = retrieve_relevant_chunks embed st.chunks query top_k source_filter := by
  rcases h with h | ⟨fi, hfi, hn⟩
  · simp [retrieve_relevant_chunks_faiss, h]
  · simp [retrieve_relevant_chunks_faiss, hfi, hn]

/-- Witness for C6 at a concrete state with no FAISS index. -/
theorem faiss_fallback_witness :
    retrieve_relevant_chunks_faiss wEmbed emptyState (str "x") 5 none
      = retrieve_relevant_chunks wEmbed emptyState.chunks (str "x") 5 none :=
  faiss_fallback wEmbed emptyState (str "x") 5 none (Or.inl rfl)

/-- Claim C8: when neither artifact file of `index_name` exists,
`delete_index` returns `True`; and whenever removing an existing artifact
file raises, `delete_index` returns `False`. -/
theorem delete_index_spec (d : Disk) (name : String) :
    ((d.faissFile (_get_index_path name).1 = none
        ∧ d.metaFile (_get_index_path name).2 = none)
      → (delete_index d name).1 = true)
    ∧ (((d.faissFile (_get_index_path name).1).isSome = true
        ∧ d.removeOk (_get_index_path name).1 = false)
      → (delete_index d name).1 = false)
    ∧ (((d.metaFile (_get_index_path name).2).isSome = true
        ∧ d.removeOk (_get_index_path name).2 = false)
      → (delete_index d name).1 = false) := by
  refine ⟨?_, ?_, ?_⟩
  · rintro ⟨h1, h2⟩
    simp [delete_index, h1, h2]
  · rintro ⟨h1, h2⟩
    simp [delete_index, h1, h2]
  · rintro ⟨h1, h2⟩
    by_cases hf : (d.faissFile (_get_index_path name).1).isSome
    · by_cases hr : d.removeOk (_get_index_path name).1
      · simp [delete_index, hf, hr, h1, h2]
      · simp [delete_index, hf, hr]
    · simp [delete_index, hf, h1, h2]

/-- Witness for C8: deleting a never-saved name on an empty disk
succeeds. -/
theorem delete_index_spec_witness :
    (delete_index emptyDisk "never_saved").1 = true :=
  (delete_index_spec emptyDisk "never_saved").1 ⟨rfl, rfl⟩

/-- Claim C5 fails on the code: with a readable FAISS file and a corrupt
metadata file, `_load_index` returns `False` yet the in-memory vector
store has been replaced (the assignment to `self.faiss_index` on line 422
runs before `pickle.load` raises). -/
theorem load_index_counterexample :
    (_load_index emptyState corruptDisk "default").2 = false
    ∧ (_load_index emptyState corruptDisk "default").1.faiss_index
        ≠ emptyState.faiss_index := by
  have h : _load_index emptyState corruptDisk "default"
      = ({ emptyState with faiss_index := some wFaiss }, false) := rfl
  rw [h]
  exact ⟨rfl, by simp [emptyState]⟩

/-- Claim C5, amended: `_load_index` never raises — it returns a
found/not-found result; when a file is missing, or the vector-store file
itself is unreadable, the state is untouched; on a successful load all
three state components are replaced with the restored state; but when the
vector-store file reads successfully and the metadata file is corrupt, it
returns `False` with the vector store already replaced (chunk list and
mapping unchanged). -/
theorem load_index_cases (st : EngineState) (d : Disk) (name : String) :
    ((d.faissFile (_get_index_path name).1 = none
        ∨ d.metaFile (_get_index_path name).2 = none)
      → _load_index st d name = (st, false))
    ∧ ((d.faissFile (_get_index_path name).1 = some .corrupt
        ∧ (d.metaFile (_get_index_path name).2).isSome = true)
      → _load_index st d name = (st, false))
    ∧ (∀ fi m, d.faissFile (_get_index_path name).1 = some (.good fi)
      → d.metaFile (_get_index_path name).2 = some (.good m)
      → _load_index st d name
          = ({ st with faiss_index := some fi, chunks := m.chunks, index_to_chunk_map := m.index_to_chunk_map }, true))
    ∧ (∀ fi, d.faissFile (_get_index_path name).1 = some (.good fi)
      → d.metaFile (_get_index_path name).2 = some .corrupt
      → _load_index st d name = ({ st with faiss_index := some fi }, false)) := by
  refine ⟨?_, ?_, ?_, ?_⟩
  · rintro (h | h) <;>
      · cases hf : d.faissFile (_get_index_path name).1 <;>
          cases hm : d.metaFile (_get_index_path name).2 <;>
            simp_all [_load_index]
  · rintro ⟨h1, h2⟩
    cases hm : d.metaFile (_get_index_path name).2 <;> simp_all [_load_index]
  · intro fi m h1 h2
    simp [_load_index, h1, h2]
  · intro fi h1 h2
    simp [_load_index, h1, h2]

/-- Witness for the amended C5 at a concrete state and disk. -/
theorem load_index_cases_witness :
    _load_index emptyState emptyDisk "default" = (emptyState, false) :=
  (load_index_cases emptyState emptyDisk "default").1 (Or.inl rfl)

/-- The summed squares of a vector's entries are nonnegative. -/
theorem sum_sq_nonneg (v : List ℝ) : 0 ≤ (v.map (fun x => x ^ 2)).sum := by
  apply List.sum_nonneg
  intro x hx
  obtain ⟨y, _, rfl⟩ := List.mem_map.mp hx
  exact sq_nonneg y

/-- The summed squares of a vector with a nonzero entry are positive. -/
theorem sum_sq_pos (v : List ℝ) (x : ℝ) (hx : x ∈ v) (hx0 : x ≠ 0) :
    0 < (v.map (fun y => y ^ 2)).sum := by
  obtain ⟨s, t, rfl⟩ := List.append_of_mem hx
  have hxx : (0 : ℝ) < x ^ 2 :=
    lt_of_le_of_ne (sq_nonneg x) (Ne.symm (pow_ne_zero 2 hx0))
  have h1 := sum_sq_nonneg s
  have h2 := sum_sq_nonneg t
  simp only [List.map_append, List.sum_append, List.map_cons, List.sum_cons]
  nlinarith

/-- A vector with a nonzero entry has positive Euclidean norm. -/
theorem normL_pos (v : List ℝ) (h : ∃ x ∈ v, x ≠ 0) : 0 < normL v := by
  obtain ⟨x, hx, hx0⟩ := h
  exact Real.sqrt_pos.mpr (sum_sq_pos v x hx hx0)

/-- Claim C10: `cosine_similarity` divides the dot product by
`normL vec1 * normL vec2` with no guard, so it is well-defined only when
both vectors are nonzero; under that precondition — imposed on the query
embedding and on every stored chunk embedding — the denominator of every
division performed during brute-force retrieval is nonzero. -/
theorem cosine_similarity_denominator_nonzero (query_embedding : List ℝ)
    (chunks : List Chunk)
    (hq : ∃ x ∈ query_embedding, x ≠ 0)
    (hc : ∀ c ∈ chunks, ∀ e, c.embedding = some e → ∃ x ∈ e, x ≠ 0) :
    ∀ c ∈ chunks, ∀ e, c.embedding = some e →
      normL query_embedding * normL e ≠ 0
      ∧ cosine_similarity query_embedding e
          = dotL query_embedding e / (normL query_embedding * normL e) := by
  intro c hcm e he
  refine ⟨?_, rfl⟩
  exact ne_of_gt (mul_pos (normL_pos _ hq) (normL_pos _ (hc c hcm e he)))

/-- Witness for C10 at a concrete query embedding and chunk list. -/
theorem cosine_similarity_denominator_nonzero_witness :
    normL [(1 : ℝ)] * normL [(1 : ℝ)] ≠ 0 :=
  (cosine_similarity_denominator_nonzero [(1 : ℝ)] [wChunk]
    ⟨1, by simp, one_ne_zero⟩
    (by
      intro c hcm e he
      simp only [List.mem_singleton] at hcm
      subst hcm
      simp only [wChunk] at he
      obtain rfl : e = [(1 : ℝ)] := by simpa using he.symm
      exact ⟨1, by simp, one_ne_zero⟩)
    wChunk (by simp) [(1 : ℝ)] (by simp [wChunk])).1

/-- `splitPara` never returns an empty list of paragraphs
(Python `split` always yields at least one piece). -/
theorem splitPara_ne_nil (t : List Char) : splitPara t ≠ [] := by
  induction t using splitPara.induct with
  | case1 => simp [splitPara]
  | case2 rest ih => simp [splitPara]
  | case3 c rest h heq ih => exact absurd heq ih
  | case4 c rest h p ps heq ih =>
    rw [splitPara.eq_def]
    split
    · simp
    · simp
    · rename_i c' rest' hne
      obtain ⟨rfl, rfl⟩ := hne
      rw [heq]
      simp

theorem removeWs_append (a b : List Char) :
    removeWs (a ++ b) = removeWs a ++ removeWs b := by
  simp [removeWs, List.filter_append]

theorem removeWs_dropWhile (s : List Char) :
    removeWs (s.dropWhile isWs) = removeWs s := by
  induction s with
  | nil => rfl
  | cons c t ih =>
    by_cases hc : isWs c
    · simpa [List.dropWhile_cons, hc, removeWs] using ih
    · simp [List.dropWhile_cons, hc]

theorem removeWs_reverse (s : List Char) :
    removeWs s.reverse = (removeWs s).reverse := by
  simp [removeWs, List.filter_reverse]

/-- Stripping edge whitespace does not change the non-whitespace
characters. -/
theorem removeWs_strip (s : List Char) : removeWs (strip s) = removeWs s := by
  unfold strip
  rw [removeWs_reverse, removeWs_dropWhile, removeWs_reverse, removeWs_dropWhile,
    List.reverse_reverse]

theorem removeWs_of_strip_empty (s : List Char) (h : (strip s).isEmpty = true) :
    removeWs s = [] := by
  have h2 := removeWs_strip s
  rw [List.isEmpty_iff.mp h] at h2
  exact h2.symm

/-- Reassembling the paragraphs of `splitPara` loses only the whitespace
separators. -/
theorem removeWs_join_splitPara (t : List Char) :
    removeWs ((splitPara t).flatten) = removeWs t := by
  induction t using splitPara.induct with
  | case1 => rfl
  | case2 rest ih =>
    have h2 : splitPara ('\n' :: '\n' :: rest) = [] :: splitPara rest := rfl
    rw [h2]
    simpa [removeWs, isWs] using ih
  | case3 c rest h heq ih => exact absurd heq (splitPara_ne_nil rest)
  | case4 c rest h p ps heq ih =>
    rw [splitPara.eq_def]
    split
    · simp_all
    · rename_i rest1 hne
      injection hne with h1 h2
      exact (h rest1 h1 h2).elim
    · rename_i c' rest' hne
      obtain ⟨rfl, rfl⟩ := hne
      rw [heq]
      rw [heq] at ih
      by_cases hc : isWs c
      · simpa [removeWs, hc] using ih
      · simpa [removeWs, hc] using ih

/-- Invariant of the chunking loop: finished chunks have non-empty text,
and the non-whitespace characters of the finished chunks plus the running
buffer are those of the accumulator plus the paragraphs still to
process, in order. -/
theorem chunkFold_spec (src : Source) (sect : List Char) (size : Int)
    (ps : List (List Char)) :
    ∀ acc : List Chunk × List Char,
      (∀ c ∈ acc.1, c.text ≠ []) →
      (∀ c ∈ (ps.foldl (chunkStep src sect size) acc).1, c.text ≠ [])
      ∧ removeWs (((ps.foldl (chunkStep src sect size) acc).1.map Chunk.text).flatten
            ++ (ps.foldl (chunkStep src sect size) acc).2)
        = removeWs ((acc.1.map Chunk.text).flatten ++ acc.2 ++ ps.flatten) := by
  induction ps with
  | nil =>
    intro acc h
    exact ⟨h, by simp⟩
  | cons p ps ih =>
    intro acc h
    have hstep : ∀ c ∈ (chunkStep src sect size acc p).1, c.text ≠ [] := by
      intro c hc
      unfold chunkStep at hc
      split_ifs at hc with h1 h2
      · exact h c hc
      · exact h c hc
      · simp only [List.mem_append, List.mem_singleton] at hc
        rcases hc with hc | hc
        · exact h c hc
        · subst hc
          simpa [List.isEmpty_iff] using h2
    obtain ⟨ih1, ih2⟩ := ih (chunkStep src sect size acc p) hstep
    rw [List.foldl_cons]
    refine ⟨ih1, ?_⟩
    rw [ih2]
    have hsep : removeWs ['\n', '\n'] = [] := by decide
    have hcons : ∀ l : List Char, removeWs ('\n' :: l) = removeWs l := fun l => rfl
    unfold chunkStep
    split_ifs with h1 h2
    · simp [removeWs_append, hsep, hcons, List.flatten_cons]
    · simp [removeWs_append, hsep, hcons, List.flatten_cons,
        removeWs_of_strip_empty acc.2 h2]
    · simp [removeWs_append, hsep, hcons, List.flatten_cons, removeWs_strip]

/-- Claim C4: for every input text, source, section label, and chunk size,
`chunk_text` never emits a chunk with empty text, and the concatenation of
the emitted chunk texts carries exactly the non-whitespace characters of
the input, in their original order (chunking only inserts and trims
whitespace at paragraph and chunk boundaries). -/
theorem chunk_text_spec (text : List Char) (source : Source) (sect : List Char)
    (chunk_size : Int) :
    (∀ c ∈ chunk_text text source sect chunk_size, c.text ≠ [])
    ∧ removeWs (((chunk_text text source sect chunk_size).map Chunk.text).flatten)
        = removeWs text := by
  obtain ⟨h1, h2⟩ := chunkFold_spec source sect chunk_size (splitPara text) ([], [])
    (by simp)
  simp only [List.map_nil, List.flatten_nil, List.nil_append] at h2
  rw [removeWs_join_splitPara] at h2
  unfold chunk_text
  simp only []
  by_cases hf : (strip ((splitPara text).foldl (chunkStep source sect chunk_size)
      ([], [])).2).isEmpty
  · rw [if_pos hf]
    refine ⟨h1, ?_⟩
    rw [← h2, removeWs_append, removeWs_of_strip_empty _ hf, List.append_nil]
  · rw [if_neg hf]
    constructor
    · intro c hc
      simp only [List.mem_append, List.mem_singleton] at hc
      rcases hc with hc | hc
      · exact h1 c hc
      · subst hc
        simpa [List.isEmpty_iff] using hf
    · rw [← h2, List.map_append, List.flatten_append, removeWs_append, removeWs_append]
      simp [removeWs_strip]

theorem chunk_text_source (t : List Char) (src : Source) (sect : List Char)
    (n : Int) : ∀ c ∈ chunk_text t src sect n, c.source = src := by
  have hfold : ∀ (ps : List (List Char)) (acc : List Chunk × List Char),
      (∀ c ∈ acc.1, c.source = src) →
      ∀ c ∈ (ps.foldl (chunkStep src sect n) acc).1, c.source = src := by
    intro ps
    induction ps with
    | nil => intro acc h; exact h
    | cons p ps ih =>
      intro acc h
      rw [List.foldl_cons]
      apply ih
      intro c hc
      unfold chunkStep at hc
      split_ifs at hc
      · exact h c hc
      · exact h c hc
      · simp only [List.mem_append, List.mem_singleton] at hc
        rcases hc with hc | hc
        · exact h c hc
        · subst hc; rfl
  unfold chunk_text
  simp only []
  split_ifs with hf
  · exact hfold _ _ (by simp)
  · intro c hc
    simp only [List.mem_append, List.mem_singleton] at hc
    rcases hc with hc | hc
    · exact hfold _ _ (by simp) c hc
    · subst hc; rfl

theorem dictInsert_mem {α β : Type} [DecidableEq α] (m : List (α × β)) (k : α)
    (v : β) : ∀ p ∈ dictInsert m k v, p ∈ m ∨ p = (k, v) := by
  intro p hp
  unfold dictInsert at hp
  split_ifs at hp
  · obtain ⟨e, he, hpe⟩ := List.mem_map.mp hp
    by_cases hek : e.1 = k
    · right; rw [← hpe]; simp [hek]
    · left; rw [← hpe]; simpa [hek] using he
  · simp only [List.mem_append, List.mem_singleton] at hp
    exact hp

theorem enumFold_mem (s : ℕ) (idxs : List ℕ) :
    ∀ (m0 : List (ℕ × ℕ)) (p : ℕ × ℕ),
      p ∈ (idxs.enum).foldl (fun m e => dictInsert m (s + e.1) e.2) m0 →
      p ∈ m0 ∨ p.2 ∈ idxs := by
  have hgen : ∀ (l : List (ℕ × ℕ)) (m0 : List (ℕ × ℕ)) (p : ℕ × ℕ),
      p ∈ l.foldl (fun m e => dictInsert m (s + e.1) e.2) m0 →
      p ∈ m0 ∨ p.2 ∈ l.map Prod.snd := by
    intro l
    induction l with
    | nil => intro m0 p hp; exact Or.inl hp
    | cons e l ih =>
      intro m0 p hp
      rw [List.foldl_cons] at hp
      rcases ih _ p hp with h | h
      · rcases dictInsert_mem m0 (s + e.1) e.2 p h with h2 | h2
        · exact Or.inl h2
        · right; rw [h2]; simp
      · right; simp [h]
  intro m0 p hp
  rcases hgen _ m0 p hp with h | h
  · exact Or.inl h
  · right
    rwa [List.enum_map_snd] at h


/-- All chunks appended by the indexing loop carry a source from `L`. -/
theorem indexFold_spec (embed : List Char → List ℝ) (src : Source)
    (L : List Chunk) (hL : ∀ c ∈ L, c.source = src) :
    ∀ acc : EngineState × List (List ℝ) × List ℕ,
      ∃ L' : List Chunk,
        (L.foldl (indexChunkStep embed) acc).1.chunks = acc.1.chunks ++ L'
        ∧ (∀ c ∈ L', c.source = src)
        ∧ (L.foldl (indexChunkStep embed) acc).1.faiss_index = acc.1.faiss_index
        ∧ (L.foldl (indexChunkStep embed) acc).1.index_to_chunk_map
            = acc.1.index_to_chunk_map
        ∧ (∀ j ∈ (L.foldl (indexChunkStep embed) acc).2.2,
            j ∈ acc.2.2 ∨ j < (L.foldl (indexChunkStep embed) acc).1.chunks.length) := by
  induction L with
  | nil =>
    intro acc
    exact ⟨[], by simp, by simp, rfl, rfl, fun j hj => Or.inl hj⟩
  | cons ch L ih =>
    intro acc
    have hLr : ∀ c ∈ L, c.source = src := fun c hc => hL c (List.mem_cons_of_mem _ hc)
    obtain ⟨L'', h1, h2, h3, h4, h5⟩ := ih hLr (indexChunkStep embed acc ch)
    refine ⟨{ ch with embedding := some (embed ch.text) } :: L'', ?_, ?_, ?_, ?_, ?_⟩
    · rw [List.foldl_cons, h1]
      simp [indexChunkStep]
    · intro c hc
      rcases List.mem_cons.mp hc with hc | hc
      · subst hc
        exact hL ch (List.mem_cons_self _ _)
      · exact h2 c hc
    · rw [List.foldl_cons, h3]
      simp [indexChunkStep]
    · rw [List.foldl_cons, h4]
      simp [indexChunkStep]
    · intro j hj
      rw [List.foldl_cons] at hj ⊢
      rcases h5 j hj with hj2 | hj2
      · simp only [indexChunkStep, List.mem_append, List.mem_singleton] at hj2
        rcases hj2 with hj2 | hj2
        · exact Or.inl hj2
        · right
          rw [h1]
          subst hj2
          simp only [indexChunkStep, List.length_append, List.length_cons]
          omega
      · exact Or.inr hj2


/-- The sections loop of `index_resume_with_faiss` appends only
resume-source chunks and records only in-bounds positions. -/
theorem sectionsFold_spec (embed : List Char → List ℝ)
    (secs : List (List Char × List Char)) :
    ∀ acc : EngineState × List (List ℝ) × List ℕ,
      ∃ L' : List Chunk,
        (secs.foldl (fun acc sec =>
            (chunk_text sec.2 .resume sec.1).foldl (indexChunkStep embed) acc)
          acc).1.chunks = acc.1.chunks ++ L'
        ∧ (∀ c ∈ L', c.source = .resume)
        ∧ (secs.foldl (fun acc sec =>
            (chunk_text sec.2 .resume sec.1).foldl (indexChunkStep embed) acc)
          acc).1.faiss_index = acc.1.faiss_index
        ∧ (secs.foldl (fun acc sec =>
            (chunk_text sec.2 .resume sec.1).foldl (indexChunkStep embed) acc)
          acc).1.index_to_chunk_map = acc.1.index_to_chunk_map
        ∧ (∀ j ∈ (secs.foldl (fun acc sec =>
            (chunk_text sec.2 .resume sec.1).foldl (indexChunkStep embed) acc)
          acc).2.2,
            j ∈ acc.2.2 ∨ j < (secs.foldl (fun acc sec =>
              (chunk_text sec.2 .resume sec.1).foldl (indexChunkStep embed) acc)
            acc).1.chunks.length) := by
  induction secs with
  | nil =>
    intro acc
    exact ⟨[], by simp, by simp, rfl, rfl, fun j hj => Or.inl hj⟩
  | cons sec secs ih =>
    intro acc
    obtain ⟨L1, g1, g2, g3, g4, g5⟩ :=
      indexFold_spec embed .resume (chunk_text sec.2 .resume sec.1)
        (chunk_text_source sec.2 .resume sec.1 500) acc
    obtain ⟨L2, h1, h2, h3, h4, h5⟩ :=
      ih ((chunk_text sec.2 .resume sec.1).foldl (indexChunkStep embed) acc)
    refine ⟨L1 ++ L2, ?_, ?_, ?_, ?_, ?_⟩
    · rw [List.foldl_cons, h1, g1, List.append_assoc]
    · intro c hc
      rcases List.mem_append.mp hc with hc | hc
      · exact g2 c hc
      · exact h2 c hc
    · rw [List.foldl_cons, h3, g3]
    · rw [List.foldl_cons, h4, g4]
    · intro j hj
      rw [List.foldl_cons] at hj ⊢
      have hlen : ((chunk_text sec.2 .resume sec.1).foldl (indexChunkStep embed)
          acc).1.chunks.length
          ≤ (secs.foldl (fun acc sec =>
              (chunk_text sec.2 .resume sec.1).foldl (indexChunkStep embed) acc)
            ((chunk_text sec.2 .resume sec.1).foldl (indexChunkStep embed)
              acc)).1.chunks.length := by
        rw [h1]
        simp
      rcases h5 j hj with hj2 | hj2
      · rcases g5 j hj2 with hj3 | hj3
        · exact Or.inl hj3
        · exact Or.inr (lt_of_lt_of_le hj3 hlen)
      · exact Or.inr hj2



theorem add_faiss_spec (st : EngineState) (embs : List (List ℝ)) (idxs : List ℕ) :
    (_add_to_faiss_index st embs idxs).chunks = st.chunks
    ∧ ∀ p ∈ (_add_to_faiss_index st embs idxs).index_to_chunk_map,
        p ∈ st.index_to_chunk_map ∨ p.2 ∈ idxs := by
  unfold _add_to_faiss_index
  refine ⟨rfl, ?_⟩
  intro p hp
  exact enumFold_mem _ idxs st.index_to_chunk_map p hp

theorem index_resume_state_spec (embed : List Char → List ℝ) (st : EngineState)
    (d : Disk) (text : List Char) (name : String) (now : List Char) :
    (∀ c ∈ (index_resume_with_faiss embed st d text true name now).1.chunks,
      c.source = .resume)
    ∧ MapOk (index_resume_with_faiss embed st d text true name now).1 := by
  unfold index_resume_with_faiss
  simp only []
  obtain ⟨L', h1, h2, h3, h4, h5⟩ :=
    sectionsFold_spec embed (_detect_sections text) (clear_index st, [], [])
  set acc := (_detect_sections text).foldl (fun acc sec =>
    (chunk_text sec.2 .resume sec.1).foldl (indexChunkStep embed) acc)
    (clear_index st, [], []) with hacc
  have hchunks : acc.1.chunks = L' := by
    rw [h1]; simp [clear_index]
  have hmap0 : acc.1.index_to_chunk_map = [] := by
    rw [h4]; simp [clear_index]
  split_ifs with he
  · constructor
    · intro c hc
      rw [hchunks] at hc
      exact h2 c hc
    · intro p hp
      rw [hmap0] at hp
      exact absurd hp (List.not_mem_nil p)
  · obtain ⟨ha1, ha2⟩ := add_faiss_spec acc.1 acc.2.1 acc.2.2
    constructor
    · intro c hc
      rw [ha1, hchunks] at hc
      exact h2 c hc
    · intro p hp
      rcases ha2 p hp with hp2 | hp2
      · rw [hmap0] at hp2
        exact absurd hp2 (List.not_mem_nil p)
      · rcases h5 p.2 hp2 with hp3 | hp3
        · exact absurd hp3 (List.not_mem_nil _)
        · refine ⟨acc.1.chunks.get ⟨p.2, hp3⟩, ?_, Or.inl ?_⟩
          · rw [ha1]
            exact List.get?_eq_get hp3
          · have hmem : acc.1.chunks.get ⟨p.2, hp3⟩ ∈ acc.1.chunks :=
              List.get_mem _ _ _
            have hmem2 : acc.1.chunks.get ⟨p.2, hp3⟩ ∈ L' := by
              rw [← hchunks]
              exact hmem
            exact h2 _ hmem2


theorem index_jd_state_spec (embed : List Char → List ℝ) (st : EngineState)
    (d : Disk) (text : List Char) (name : String) (now : List Char)
    (hall : ∀ c ∈ st.chunks, c.source = .resume ∨ c.source = .job_description)
    (hmap : MapOk st) :
    (∀ c ∈ (index_job_description_with_faiss embed st d text true name now).1.chunks,
      c.source = .resume ∨ c.source = .job_description)
    ∧ MapOk (index_job_description_with_faiss embed st d text true name now).1 := by
  unfold index_job_description_with_faiss
  simp only []
  obtain ⟨L', h1, h2, h3, h4, h5⟩ :=
    indexFold_spec embed .job_description
      (chunk_text text .job_description (str "requirements"))
      (chunk_text_source text .job_description (str "requirements") 500) (st, [], [])
  set acc := (chunk_text text .job_description (str "requirements")).foldl
    (indexChunkStep embed) (st, [], []) with hacc
  have hall2 : ∀ c ∈ acc.1.chunks, c.source = .resume ∨ c.source = .job_description := by
    intro c hc
    rw [h1] at hc
    rcases List.mem_append.mp hc with hc | hc
    · exact hall c hc
    · exact Or.inr (h2 c hc)
  have hmap2 : MapOk acc.1 := by
    intro p hp
    rw [h4] at hp
    obtain ⟨c, hc1, hc2⟩ := hmap p hp
    have hlt : p.2 < st.chunks.length := by
      rcases List.get?_eq_some.mp hc1 with ⟨h, _⟩
      exact h
    refine ⟨c, ?_, hc2⟩
    rw [h1]
    show (st.chunks ++ L').get? p.2 = some c
    rw [List.get?_append hlt]
    exact hc1
  split_ifs with he
  · exact ⟨hall2, hmap2⟩
  · obtain ⟨ha1, ha2⟩ := add_faiss_spec acc.1 acc.2.1 acc.2.2
    constructor
    · intro c hc
      rw [ha1] at hc
      exact hall2 c hc
    · intro p hp
      rcases ha2 p hp with hp2 | hp2
      · obtain ⟨c, hc1, hc2⟩ := hmap2 p hp2
        refine ⟨c, ?_, hc2⟩
        rw [ha1]
        exact hc1
      · rcases h5 p.2 hp2 with hp3 | hp3
        · exact absurd hp3 (List.not_mem_nil _)
        · have hq := List.get?_eq_get hp3
          refine ⟨acc.1.chunks.get ⟨p.2, hp3⟩, ?_, ?_⟩
          · rw [ha1]
            exact hq
          · exact hall2 _ (List.get_mem _ _ _)

theorem index_ats_state_spec (embed : List Char → List ℝ) (st : EngineState) :
    ∃ L', (index_ats_rules embed st).chunks = st.chunks ++ L'
    ∧ (index_ats_rules embed st).index_to_chunk_map = st.index_to_chunk_map := by
  unfold index_ats_rules
  have hgen : ∀ (l : List AtsRule) (st : EngineState),
      ∃ L', (l.foldl (fun st rc =>
          let rule_text := rc.category ++ str ": " ++ List.intercalate (str " ") rc.rules
          let chunks := (chunk_text rule_text .ats_rules rc.category).map
            (fun ch => { ch with embedding := some (embed ch.text) })
          { st with chunks := st.chunks ++ chunks }) st).chunks = st.chunks ++ L'
        ∧ (l.foldl (fun st rc =>
          let rule_text := rc.category ++ str ": " ++ List.intercalate (str " ") rc.rules
          let chunks := (chunk_text rule_text .ats_rules rc.category).map
            (fun ch => { ch with embedding := some (embed ch.text) })
          { st with chunks := st.chunks ++ chunks }) st).index_to_chunk_map
            = st.index_to_chunk_map := by
    intro l
    induction l with
    | nil => intro st; exact ⟨[], by simp, rfl⟩
    | cons rc l ih =>
      intro st
      obtain ⟨L'', g1, g2⟩ := ih _
      rw [List.foldl_cons]
      refine ⟨(chunk_text (rc.category ++ str ": " ++ List.intercalate (str " ")
          rc.rules) .ats_rules rc.category).map
          (fun ch => { ch with embedding := some (embed ch.text) }) ++ L'', ?_, ?_⟩
      · rw [g1]
        simp only []
        rw [List.append_assoc]
      · rw [g2]
  exact hgen ats_rules st


theorem MapOk_of_append (st st2 : EngineState) (L' : List Chunk)
    (h : MapOk st) (hc : st2.chunks = st.chunks ++ L')
    (hm : st2.index_to_chunk_map = st.index_to_chunk_map) : MapOk st2 := by
  intro p hp
  rw [hm] at hp
  obtain ⟨c, hc1, hc2⟩ := h p hp
  refine ⟨c, ?_, hc2⟩
  have hlt : p.2 < st.chunks.length := by
    rcases List.get?_eq_some.mp hc1 with ⟨hl, _⟩
    exact hl
  rw [hc]
  show (st.chunks ++ L').get? p.2 = some c
  rw [List.get?_append hlt]
  exact hc1

/-- Claim C9: after the indexing phase of `analyze_with_rag_faiss`, the
chunks produced by `index_ats_rules` sit in the chunk collection but were
never added to the FAISS index: every identifier in the
identifier-to-chunk mapping resolves to a chunk whose source is `resume`
or `job_description`, never `ats_rules`. -/
theorem analyze_map_only_indexed (embed : List Char → List ℝ) (st : EngineState)
    (d : Disk) (resume_text : List Char) (job_description : Option (List Char))
    (index_name : String) (now : List Char) :
    ∀ i j, lookupD (analyze_with_rag_faiss_state embed st d resume_text
        job_description index_name now).1.index_to_chunk_map i = some j →
      ∃ c, (analyze_with_rag_faiss_state embed st d resume_text job_description
          index_name now).1.chunks.get? j = some c
        ∧ c.source ≠ .ats_rules
        ∧ (c.source = .resume ∨ c.source = .job_description) := by
  intro i j hij
  unfold analyze_with_rag_faiss_state at *
  simp only [] at hij ⊢
  obtain ⟨hr1, hr2⟩ := index_resume_state_spec embed (clear_index st) d resume_text
    index_name now
  set rd := index_resume_with_faiss embed (clear_index st) d resume_text true
    index_name now with hrd
  have hjd : (∀ c ∈ (match job_description with
        | some t => index_job_description_with_faiss embed rd.1 rd.2 t true index_name now
        | none => rd).1.chunks, c.source = .resume ∨ c.source = .job_description)
      ∧ MapOk (match job_description with
        | some t => index_job_description_with_faiss embed rd.1 rd.2 t true index_name now
        | none => rd).1 := by
    match job_description with
    | some t =>
      exact index_jd_state_spec embed rd.1 rd.2 t index_name now
        (fun c hc => Or.inl (hr1 c hc)) hr2
    | none =>
      exact ⟨fun c hc => Or.inl (hr1 c hc), hr2⟩
  set st2 := (match job_description with
    | some t => index_job_description_with_faiss embed rd.1 rd.2 t true index_name now
    | none => rd).1 with hst2
  obtain ⟨L', ha1, ha2⟩ := index_ats_state_spec embed st2
  have hmap3 : MapOk (index_ats_rules embed st2) :=
    MapOk_of_append st2 _ L' hjd.2 ha1 ha2
  obtain ⟨e, he1, he2⟩ := Option.map_eq_some'.mp hij
  have hmem : e ∈ (index_ats_rules embed st2).index_to_chunk_map :=
    List.mem_of_find?_eq_some he1
  obtain ⟨c, hc1, hc2⟩ := hmap3 e hmem
  refine ⟨c, ?_, ?_, hc2⟩
  · rw [← he2]
    exact hc1
  · rcases hc2 with hc2 | hc2 <;> simp [hc2]

set_option maxRecDepth 10000 in
/-- Witness for C9: a concrete analysis run whose mapping holds the entry
`0 ↦ 0`, resolving to the indexed resume chunk. -/
theorem analyze_map_only_indexed_witness :
    ∃ c, (analyze_with_rag_faiss_state wEmbed emptyState emptyDisk (str "Hello")
        none "w" (str "t")).1.chunks.get? 0 = some c
      ∧ c.source ≠ .ats_rules
      ∧ (c.source = .resume ∨ c.source = .job_description) :=
  analyze_map_only_indexed wEmbed emptyState emptyDisk (str "Hello") none "w"
    (str "t") 0 0 (by decide)

theorem sourceFiltered_subset (chunks : List Chunk) (flt : Option Source) :
    sourceFiltered chunks flt ⊆ chunks := by
  cases flt with
  | none => exact fun c hc => hc
  | some s => exact List.filter_subset' chunks

theorem filter_orderedInsert_key (r : ℝ) (a : Chunk × ℝ) (l : List (Chunk × ℝ))
    (h : a.2 = r) :
    (List.orderedInsert simRel a l).filter (keyP r) = a :: l.filter (keyP r) := by
  have ha : keyP r a = true := by simp [keyP, h]
  induction l with
  | nil => simp [List.orderedInsert, List.filter_cons, ha]
  | cons b t ih =>
    by_cases hab : simRel a b
    · rw [List.orderedInsert, if_pos hab, List.filter_cons, ha]
      simp
    · rw [List.orderedInsert, if_neg hab, List.filter_cons]
      have hb : keyP r b = false := by
        have hlt : a.2 < b.2 := lt_of_not_le hab
        have hne : b.2 ≠ r := by rw [← h]; exact ne_of_gt hlt
        simp [keyP, hne]
      rw [hb]
      simp only [Bool.false_eq_true, if_false]
      rw [ih, List.filter_cons, hb]
      simp

theorem filter_orderedInsert_ne (r : ℝ) (a : Chunk × ℝ) (l : List (Chunk × ℝ))
    (h : a.2 ≠ r) :
    (List.orderedInsert simRel a l).filter (keyP r) = l.filter (keyP r) := by
  have ha : keyP r a = false := by simp [keyP, h]
  induction l with
  | nil => simp [List.orderedInsert, List.filter_cons, ha]
  | cons b t ih =>
    by_cases hab : simRel a b
    · rw [List.orderedInsert, if_pos hab, List.filter_cons, ha]
      simp
    · rw [List.orderedInsert, if_neg hab, List.filter_cons, ih, List.filter_cons]

/-- Stability of the descending similarity sort: the sub-list of pairs at
any fixed similarity value is unchanged — equal keys keep their original
relative order. -/
theorem filter_sortBySimDesc (r : ℝ) (l : List (Chunk × ℝ)) :
    (sortBySimDesc l).filter (keyP r) = l.filter (keyP r) := by
  induction l with
  | nil => rfl
  | cons x l ih =>
    unfold sortBySimDesc at ih
    show (List.orderedInsert simRel x (List.insertionSort simRel l)).filter (keyP r) = _
    by_cases hx : x.2 = r
    · rw [filter_orderedInsert_key r x _ hx, List.filter_cons]
      have : keyP r x = true := by simp [keyP, hx]
      rw [this, ih]
      simp
    · rw [filter_orderedInsert_ne r x _ hx, List.filter_cons]
      have : keyP r x = false := by simp [keyP, hx]
      rw [this, ih]
      simp


/-- Claim C1: for every `top_k ≥ 0` (a natural number here) and every
populated chunk collection all of whose chunks carry (truthy) embeddings,
`retrieve_relevant_chunks` returns at most `top_k` chunks; each returned
chunk matches `source_filter` when one is given; the returned chunks are
in non-increasing order of cosine similarity to the query embedding; and
ties are broken by the chunks' original insertion order — at every fixed
similarity value, the returned chunks form a prefix of the equally-similar
chunks of the source-filtered collection in their original order. -/
theorem retrieve_relevant_chunks_spec (embed : List Char → List ℝ)
    (chunks : List Chunk) (query : List Char) (top_k : ℕ)
    (source_filter : Option Source)
    (hpop : chunks ≠ [])
    (hemb : ∀ c ∈ chunks, c.hasEmbedding = true) :
    (retrieve_relevant_chunks embed chunks query top_k source_filter).length ≤ top_k
    ∧ (∀ s, source_filter = some s →
        ∀ c ∈ retrieve_relevant_chunks embed chunks query top_k source_filter,
          c.source = s)
    ∧ List.Pairwise (fun a b => simTo (embed query) b ≤ simTo (embed query) a)
        (retrieve_relevant_chunks embed chunks query top_k source_filter)
    ∧ (∀ r : ℝ,
        List.IsPrefix
          (simFilter (embed query) r
            (retrieve_relevant_chunks embed chunks query top_k source_filter))
          (simFilter (embed query) r (sourceFiltered chunks source_filter))) := by
  have hsub := sourceFiltered_subset chunks source_filter
  have helig : (sourceFiltered chunks source_filter).filter Chunk.hasEmbedding
      = sourceFiltered chunks source_filter :=
    List.filter_eq_self.mpr (fun c hc => hemb c (hsub hc))
  set qe := embed query with hqe
  set pairfn : Chunk → Chunk × ℝ :=
    fun c => (c, cosine_similarity qe (c.embedding.getD [])) with hpairfn
  set sims := (sourceFiltered chunks source_filter).map pairfn with hsims
  have hret : retrieve_relevant_chunks embed chunks query top_k source_filter
      = ((sortBySimDesc sims).take top_k).map Prod.fst := by
    simp only [retrieve_relevant_chunks, ← hqe, helig, ← hpairfn, ← hsims]
  have hperm : ∀ x ∈ sortBySimDesc sims, x ∈ sims := by
    intro x hx
    exact (List.perm_insertionSort simRel sims).mem_iff.mp hx
  have hmemtake : ∀ x ∈ (sortBySimDesc sims).take top_k, x ∈ sims :=
    fun x hx => hperm x ((List.take_sublist _ _).subset hx)
  have hkey : ∀ x ∈ (sortBySimDesc sims).take top_k, x.2 = simTo qe x.1 := by
    intro x hx
    obtain ⟨c0, hc0, rfl⟩ := List.mem_map.mp (hmemtake x hx)
    rfl
  rw [hret]
  refine ⟨?_, ?_, ?_, ?_⟩
  · rw [List.length_map]
    exact List.length_take_le top_k _
  · intro s hs c hc
    obtain ⟨x, hx, rfl⟩ := List.mem_map.mp hc
    obtain ⟨c0, hc0, rfl⟩ := List.mem_map.mp (hmemtake x hx)
    subst hs
    have hc0b : c0 ∈ List.filter (fun c => decide (c.source = s)) chunks := hc0
    have hps := (List.mem_filter.mp hc0b).2
    exact of_decide_eq_true hps
  · have hsorted : List.Pairwise simRel (sortBySimDesc sims) :=
      List.sorted_insertionSort simRel sims
    have htake2 : List.Pairwise simRel ((sortBySimDesc sims).take top_k) :=
      List.Pairwise.sublist (List.take_sublist _ _) hsorted
    refine List.pairwise_map.mpr ?_
    refine List.Pairwise.imp_of_mem ?_ htake2
    intro a b ha hb hab
    rw [← hkey a ha, ← hkey b hb]
    exact hab
  · intro r
    unfold simFilter
    rw [List.map_filter Prod.fst ((sortBySimDesc sims).take top_k)]
    have hcongr : ((sortBySimDesc sims).take top_k).filter
        ((fun c => @decide (simTo qe c = r) (Real.decidableEq (simTo qe c) r))
          ∘ Prod.fst)
        = ((sortBySimDesc sims).take top_k).filter (keyP r) := by
      refine List.filter_congr ?_
      intro x hx
      have h2 := hkey x hx
      simp [Function.comp, keyP, h2]
    rw [hcongr]
    have hpre2 : List.IsPrefix (((sortBySimDesc sims).take top_k).filter (keyP r))
        ((sortBySimDesc sims).filter (keyP r)) := by
      refine ⟨((sortBySimDesc sims).drop top_k).filter (keyP r), ?_⟩
      rw [← List.filter_append, List.take_append_drop]
    rw [filter_sortBySimDesc r sims] at hpre2
    have hback : (sims.filter (keyP r)).map Prod.fst
        = (sourceFiltered chunks source_filter).filter
            (fun c => @decide (simTo qe c = r) (Real.decidableEq (simTo qe c) r)) := by
      rw [hsims, List.map_filter pairfn]
      rw [List.map_map]
      have hcomp : Prod.fst ∘ pairfn = id := rfl
      rw [hcomp, List.map_id]
      refine List.filter_congr ?_
      intro c hc
      rfl
    rw [← hback]
    obtain ⟨t, ht⟩ := hpre2
    exact ⟨t.map Prod.fst, by rw [← List.map_append, ht]⟩

/-- Witness for C1 at a concrete one-chunk collection. -/
theorem retrieve_relevant_chunks_spec_witness :
    (retrieve_relevant_chunks wEmbed [wChunk] (str "x") 1 none).length ≤ 1 :=
  (retrieve_relevant_chunks_spec wEmbed [wChunk] (str "x") 1 none (by simp)
    (by decide)).1

end RagEngine
